import Mathlib

/-!
Verification development for the poem-scraper repository (src/main.py and
src/json_content_filler.py), as a shallow embedding in Lean 4.

HTML pages are modelled by the data the source's CSS selectors read off them
(selector strings themselves are site configuration): a listing page is its
article cards plus its two possible "next" links, a poem detail page is the
list of category links each selector strategy would return, and the site is a
finite association list from url to page.  `get_soup` returning `None` (fetch
failure, non-200 status, timeout) is modelled by a url that is absent from the
association list.  Time delays (`time.sleep`) are not modelled.  The two
`while`/generator loops are modelled by structurally recursive functions on a
fuel argument; the fuel `sitePageFuel` is one more than the number of listing
urls of the site, and a stability theorem below shows the result is unchanged
by any larger fuel, which is the termination content of the Python loops.
-/

namespace Poetica

/-! String utilities, defined structurally over the character list so that
every definition evaluates inside the kernel.  They model the Python string
methods named in their doc comments. -/

/-- Python's `str.lower`. -/
def strLower (s : String) : String := ⟨s.data.map Char.toLower⟩

/-- Leading and trailing whitespace removed, Python's `str.strip`. -/
def trimChars (cs : List Char) : List Char :=
  ((cs.dropWhile Char.isWhitespace).reverse.dropWhile Char.isWhitespace).reverse

/-- Python's `str.strip` on strings. -/
def strTrim (s : String) : String := ⟨trimChars s.data⟩

/-- Python's `str.startswith`. -/
def strStartsWith (s pre : String) : Bool := pre.data.isPrefixOf s.data

/-- First occurrence of `pat` in `cs`: the part before it and the part after
it. -/
def findSub : List Char → List Char → Option (List Char × List Char)
  | cs, pat =>
    if pat.isPrefixOf cs then some ([], cs.drop pat.length)
    else match cs with
      | [] => none
      | c :: rest => (findSub rest pat).map (fun p => (c :: p.1, p.2))

/-- Embedding of `norm_url` (src/main.py, lines 98-105): empty check, strip,
then drop one trailing slash and lowercase. -/
def norm_url (u : String) : String :=
  if u = "" then ""
  else
    let s := strTrim u
    if s = "" then ""
    else if s.data.getLast? = some '/' then strLower ⟨s.data.dropLast⟩
    else strLower s

/-- The scheme-and-host part of a url, e.g. "https://www.poetica.fr". -/
def url_origin (base : String) : String :=
  match findSub base.data ("://".data) with
  | none => ""
  | some (sch, rest) => ⟨sch ++ "://".data ++ rest.takeWhile (fun c => !(c = '/'))⟩

/-- The url of the directory of `base`: everything up to and including the
last slash. -/
def url_dir (base : String) : String :=
  ⟨(base.data.reverse.dropWhile (fun c => !(c = '/'))).reverse⟩

/-- Model of `urllib.parse.urljoin` for the url shapes this crawler meets:
an empty reference yields the base, a reference with a scheme is absolute, a
scheme-relative reference keeps the base's scheme, a root-relative reference
is resolved against the origin, any other reference against the base's
directory. -/
def urljoin (base rel : String) : String :=
  if rel = "" then base
  else if (findSub rel.data ("://".data)).isSome then rel
  else if strStartsWith rel "//" then (⟨base.data.takeWhile (fun c => !(c = ':'))⟩ : String) ++ ":" ++ rel
  else if strStartsWith rel "/" then url_origin base ++ rel
  else url_dir base ++ rel

/-- Value of a digit run, as Python's `int` reads it. -/
def digitsVal (ds : List Char) : Nat :=
  ds.foldl (fun n c => 10 * n + (c.toNat - 48)) 0

/-- One attempt of the regex `(\d+)\s*commentaire` (case-insensitive) anchored
at the head of `cs`: a maximal digit run, optional whitespace, then the
literal token.  Greedy `\d+` and `\s*` agree with backtracking here because a
digit is neither whitespace nor the letter c. -/
def matchCommentAt (cs : List Char) : Option Nat :=
  let ds := cs.takeWhile Char.isDigit
  if ds.isEmpty then none
  else
    let rest := (cs.dropWhile Char.isDigit).dropWhile Char.isWhitespace
    if ("commentaire".toList).isPrefixOf (rest.map Char.toLower) then some (digitsVal ds)
    else none

/-- `re.search(r"(\d+)\s*commentaire", text, re.I)`: leftmost match wins. -/
def findCommentRegex : List Char → Option Nat
  | [] => none
  | c :: cs =>
    match matchCommentAt (c :: cs) with
    | some n => some n
    | none => findCommentRegex cs

/-- `re.search(r"(\d+)", text)`: value of the leftmost digit run. -/
def findFirstNumber : List Char → Option Nat
  | [] => none
  | c :: cs =>
    if c.isDigit then some (digitsVal ((c :: cs).takeWhile Char.isDigit))
    else findFirstNumber cs

/-- One `article.post` card of a listing page: the first `.entry-title a`
anchor (display text and href), the card's joined stripped text, and the text
of its `span.comments-link` element when present. -/
structure Article where
  anchor : Option (String × String)
  text : String
  commentsLink : Option String
deriving DecidableEq

/-- Embedding of `parse_comments_from_article` (src/main.py, lines 144-154):
the body regex first, then a number inside the comments-link element, else 0. -/
def parse_comments_from_article (article : Article) : Nat :=
  match findCommentRegex article.text.toList with
  | some n => n
  | none =>
    match article.commentsLink with
    | some s =>
      match findFirstNumber s.toList with
      | some n => n
      | none => 0
    | none => 0

/-- A listing page: its cards and the href attributes of the `a[rel=next]`
and `a.next.page-numbers` elements (none = element absent; an empty string
models an element whose href attribute is missing or empty). -/
structure ListingPage where
  articles : List Article
  relNext : Option String
  classNext : Option String
deriving DecidableEq

/-- Embedding of `find_next_page` (src/main.py, lines 176-183): the rel=next
link first, then the class-based fallback; an absent or empty href falls
through. -/
def find_next_page (page : ListingPage) : Option String :=
  let fb : Option String :=
    match page.classNext with
    | some h => if h = "" then none else some h
    | none => none
  match page.relNext with
  | some h => if h = "" then fb else some h
  | none => fb

/-- A poem detail page: for each selector of `fetch_poem_themes`'s selector
list, in order, the (href, text) pairs that selector returns. -/
structure PoemPage where
  selBlocks : List (List (String × String))
deriving DecidableEq

/-- One `{name, url}` taxonomy entry, as `extract_menus` builds them. -/
structure MenuEntry where
  name : String
  url : String
deriving DecidableEq

/-- The site root page: the (text, href) anchors of the two menu containers. -/
structure RootPage where
  authorAnchors : List (String × String)
  themeAnchors : List (String × String)
deriving DecidableEq

/-- The target site as the crawler can observe it.  A url absent from an
association list is a failed fetch (`get_soup` returns `None`). -/
structure Site where
  root : Option RootPage
  listings : List (String × ListingPage)
  poemPages : List (String × PoemPage)
deriving DecidableEq

/-- First-match association lookup (the site is a finite url-indexed map). -/
def assoc {β : Type} : List (String × β) → String → Option β
  | [], _ => none
  | (k, v) :: rest, key => if k = key then some v else assoc rest key

/-- `get_soup` at a listing url. -/
def get_soup_listing (site : Site) (url : String) : Option ListingPage :=
  assoc site.listings url

/-- `get_soup` at a poem detail url. -/
def get_soup_poem (site : Site) (url : String) : Option PoemPage :=
  assoc site.poemPages url

/-- The listing urls the site serves. -/
def listing_urls (site : Site) : List String := site.listings.map Prod.fst

/-- One menu block of `extract_menus` (src/main.py, lines 120-141): keep an
anchor only when both its stripped href and its display text are non-empty. -/
def menu_entries (anchors : List (String × String)) : List MenuEntry :=
  anchors.filterMap (fun a =>
    let url := strTrim a.2
    if url ≠ "" ∧ a.1 ≠ "" then some ⟨a.1, url⟩ else none)

/-- Embedding of `extract_menus`: (authors, categories) from the root page;
an unreachable root yields two empty lists. -/
def extract_menus (site : Site) : List MenuEntry × List MenuEntry :=
  match site.root with
  | none => ([], [])
  | some page => (menu_entries page.authorAnchors, menu_entries page.themeAnchors)

/-- A listing-page poem sighting, the dict `{title, url, comments}` (plus the
`author` key that `fetch_poems_for_author` adds). -/
structure Stub where
  title : String
  url : String
  comments : Nat
  author : Option String
deriving DecidableEq

def BASE_URL : String := "https://www.poetica.fr/"

/-- Embedding of `extract_poems_from_listing` (src/main.py, lines 157-173):
cards without a title anchor are skipped; relative hrefs are resolved against
the site root. -/
def extract_poems_from_listing (site : Site) (listing_url : String) : List Stub :=
  match get_soup_listing site listing_url with
  | none => []
  | some page =>
    page.articles.filterMap (fun article =>
      match article.anchor with
      | none => none
      | some (title, href) =>
        let url := if strStartsWith href "http" then href else urljoin BASE_URL href
        some { title := title, url := url,
               comments := parse_comments_from_article article, author := none })

/-- The inner loop of `fetch_poem_themes` over one selector's links: skip an
empty display text, skip a link whose normalized href is a known author url,
append a new text once. -/
def themesStep (author_urls : List String) (themes : List String) :
    List (String × String) → List String
  | [] => themes
  | link :: rest =>
    if link.2 = "" then themesStep author_urls themes rest
    else if norm_url link.1 ∈ author_urls then themesStep author_urls themes rest
    else if link.2 ∈ themes then themesStep author_urls themes rest
    else themesStep author_urls (themes ++ [link.2]) rest

/-- The selector loop of `fetch_poem_themes`: selectors are tried in order
and the loop stops at the first selector after which `themes` is non-empty. -/
def themesLoop (author_urls : List String) (themes : List String) :
    List (List (String × String)) → List String
  | [] => themes
  | blk :: rest =>
    let themes2 := themesStep author_urls themes blk
    if themes2 ≠ [] then themes2 else themesLoop author_urls themes2 rest

/-- Embedding of `fetch_poem_themes` (src/main.py, lines 213-241): an
unreachable page yields no themes. -/
def fetch_poem_themes (site : Site) (poem_url : String) (author_urls_set : List String) :
    List String :=
  match get_soup_poem site poem_url with
  | none => []
  | some page => themesLoop author_urls_set [] page.selBlocks

/-- The `Poem` dataclass (src/main.py, lines 83-94), including the derived
`title_lc` field that `__post_init__` computes. -/
structure Poem where
  title : String
  url : String
  comments : Nat
  author : String
  categories : List String
  title_lc : String
deriving DecidableEq

/-- `Poem(title=..., url=..., comments=..., author=..., categories=...)`:
the constructor call, with `__post_init__` filling `title_lc`. -/
def mkPoem (title url : String) (comments : Nat) (author : String)
    (categories : List String) : Poem :=
  { title := title, url := url, comments := comments, author := author,
    categories := categories, title_lc := strLower title }

/-- JSON values as the persisted dataset uses them. -/
inductive JVal where
  | str : String → JVal
  | num : Nat → JVal
  | arr : List String → JVal
deriving DecidableEq

/-- One persisted JSON object, an ordered list of (key, value) fields. -/
abbrev JRecord := List (String × JVal)

/-- `dataclasses.asdict(p)`: every dataclass field in declaration order,
the derived `title_lc` included. -/
def poemToRecord (p : Poem) : JRecord :=
  [("title", JVal.str p.title), ("url", JVal.str p.url),
   ("comments", JVal.num p.comments), ("author", JVal.str p.author),
   ("categories", JVal.arr p.categories), ("title_lc", JVal.str p.title_lc)]

/-- Embedding of `save_data` (src/main.py, lines 257-260): the persisted
array is `asdict` of each poem in order. -/
def save_data (poems : List Poem) : List JRecord := poems.map poemToRecord

/-- The `__init__` parameters of `Poem` (`title_lc` has `init=False`). -/
def init_fields : List String := ["title", "url", "comments", "author", "categories"]

/-- `Poem(**p)` for one JSON object: it succeeds exactly when the record's
keys are the five `__init__` parameters (an extra key such as `title_lc`, or
a missing one, raises `TypeError`); the value shapes follow the dataset
schema. -/
def poemOfRecord (r : JRecord) : Option Poem :=
  if (∀ k ∈ r.map Prod.fst, k ∈ init_fields) ∧ (∀ k ∈ init_fields, k ∈ r.map Prod.fst) then
    match assoc r "title", assoc r "url", assoc r "comments",
        assoc r "author", assoc r "categories" with
    | some (JVal.str t), some (JVal.str u), some (JVal.num c),
        some (JVal.str a), some (JVal.arr cs) => some (mkPoem t u c a cs)
    | _, _, _, _, _ => none
  else none

/-- The list comprehension `[Poem(**p) for p in raw]` inside the `try`: one
failure aborts the whole load. -/
def parseRecords : List JRecord → Option (List Poem)
  | [] => some []
  | r :: rest =>
    match poemOfRecord r, parseRecords rest with
    | some p, some ps => some (p :: ps)
    | _, _ => none

/-- Embedding of `load_existing_data` (src/main.py, lines 244-254): a missing
file is the empty record list; any exception while rebuilding the poems
degrades to an empty result. -/
def load_existing_data (raw : List JRecord) : List Poem :=
  match parseRecords raw with
  | some poems => poems
  | none => []

/-- The module-level caps `MAX_AUTHORS` and `MAX_POEMS_PER_AUTHOR`
(src/main.py, lines 66-67), passed explicitly. -/
structure Config where
  maxAuthors : Option Nat
  maxPoemsPerAuthor : Option Nat
deriving DecidableEq

/-- The next url the walker moves to: absent link means stop (modelled as the
empty string, which ends the walk exactly as Python's `None` does), a
relative link is resolved against the current page url. -/
def next_url_from (page_url : String) (page : ListingPage) : String :=
  match find_next_page page with
  | none => ""
  | some n => if strStartsWith n "http" then n else urljoin page_url n

/-- Fuel that provably suffices for the pagination loops: one more than the
number of listing urls the site serves. -/
def sitePageFuel (site : Site) : Nat := (listing_urls site).length + 1

/-- The `while url and url not in visited` loop of
`iterate_all_listing_pages` (src/main.py, lines 186-199), on fuel. -/
def iterateListingLoop (site : Site) : Nat → String → List String → List (String × ListingPage)
  | 0, _, _ => []
  | fuel + 1, url, visited =>
    if url = "" ∨ url ∈ visited then []
    else
      match get_soup_listing site url with
      | none => []
      | some page =>
        (url, page) :: iterateListingLoop site fuel (next_url_from url page) (url :: visited)

/-- Embedding of `iterate_all_listing_pages`: the sequence of (url, page)
pairs the generator yields. -/
def iterate_all_listing_pages (site : Site) (first_url : String) :
    List (String × ListingPage) :=
  iterateListingLoop site (sitePageFuel site) first_url []

/-- The guard `if max_poems and len(collected) >= max_poems` of
`fetch_poems_for_author`: `None` and `0` are both falsy. -/
def capReached (max_poems : Option Nat) (n : Nat) : Bool :=
  match max_poems with
  | none => false
  | some m => decide (m ≠ 0) && decide (m ≤ n)

/-- The inner `for poem in extract_poems_from_listing(...)` loop: append each
stub and return early the moment the cap is reached. -/
def appendWithCap (collected : List Stub) (stubs : List Stub) (max_poems : Option Nat) :
    List Stub × Bool :=
  match stubs with
  | [] => (collected, false)
  | s :: rest =>
    let c := collected ++ [s]
    if capReached max_poems c.length then (c, true)
    else appendWithCap c rest max_poems

/-- The line `poem["author"] = author_name` applied to each stub of one
listing page. -/
def addAuthor (author_name : String) (stubs : List Stub) : List Stub :=
  stubs.map (fun s => { s with author := some author_name })

/-- Embedding of `fetch_poems_for_author` (src/main.py, lines 202-210) fused
with the lazy generator it consumes, on fuel.  Returns the collected stubs
and the listing urls actually walked; an early return on the cap stops the
walk, so later pages never appear in the trace. -/
def fetchPoemsLoop (site : Site) (author_name : String) :
    Nat → String → List String → List Stub → Option Nat → List Stub × List String
  | 0, _, _, collected, _ => (collected, [])
  | fuel + 1, url, visited, collected, max_poems =>
    if url = "" ∨ url ∈ visited then (collected, [])
    else
      match get_soup_listing site url with
      | none => (collected, [url])
      | some page =>
        match appendWithCap collected (addAuthor author_name
            (extract_poems_from_listing site url)) max_poems with
        | (c2, true) => (c2, [url])
        | (c2, false) =>
          let r := fetchPoemsLoop site author_name fuel (next_url_from url page)
            (url :: visited) c2 max_poems
          (r.1, url :: r.2)

/-- `fetch_poems_for_author(author_name, author_url, max_poems)`: stubs
collected and listing pages walked. -/
def fetch_poems_for_author (site : Site) (author_name author_url : String)
    (max_poems : Option Nat) : List Stub × List String :=
  fetchPoemsLoop site author_name (sitePageFuel site) author_url [] [] max_poems

def CACHE_INTERMEDIATE_EVERY : Nat := 100

/-- The crawl's mutable state inside `scrape_all`, together with the traces
the claims speak about: listing urls walked, poem detail urls fetched for
theme resolution, and every collection passed to `save_data`. -/
structure ScrapeState where
  poems : List Poem
  seen : List String
  listingPages : List String
  poemFetches : List String
  saves : List (List Poem)
deriving DecidableEq

def initState : ScrapeState := ⟨[], [], [], [], []⟩

/-- `authors[:MAX_AUTHORS]` when the cap is set (src/main.py, lines 272-273). -/
def capped_authors (cfg : Config) (authors : List MenuEntry) : List MenuEntry :=
  match cfg.maxAuthors with
  | none => authors
  | some k => authors.take k

/-- The set `{norm_url(a["url"]) for a in authors}` (src/main.py, line 275),
as the list of its members. -/
def author_urls_norm (authors : List MenuEntry) : List String :=
  authors.map (fun a => norm_url a.url)

/-- The body of the `for i, p in enumerate(listing_poems, 1)` loop
(src/main.py, lines 291-310): skip a seen url before any theme fetch,
otherwise record it, resolve themes, build the `Poem`, and checkpoint every
`CACHE_INTERMEDIATE_EVERY` accepted records. -/
def processStub (site : Site) (author_set : List String) (author_name : String)
    (st : ScrapeState) (p : Stub) : ScrapeState :=
  if p.url ∈ st.seen then st
  else
    let themes := fetch_poem_themes site p.url author_set
    let poems2 := st.poems ++ [mkPoem p.title p.url p.comments author_name themes]
    { st with
      poems := poems2,
      seen := st.seen ++ [p.url],
      poemFetches := st.poemFetches ++ [p.url],
      saves := if poems2.length % CACHE_INTERMEDIATE_EVERY = 0
               then st.saves ++ [poems2] else st.saves }

/-- The body of the `for author in authors` loop (src/main.py, lines
281-310). -/
def processAuthor (site : Site) (author_set : List String) (cfg : Config)
    (st : ScrapeState) (author : MenuEntry) : ScrapeState :=
  let fetched := fetch_poems_for_author site author.name author.url cfg.maxPoemsPerAuthor
  fetched.1.foldl (processStub site author_set author.name)
    { st with listingPages := st.listingPages ++ fetched.2 }

/-- Stable descending insertion by comment count: the unique stable sort,
modelling `poems.sort(key=lambda x: x.comments, reverse=True)`. -/
def insertPoemDesc (p : Poem) : List Poem → List Poem
  | [] => [p]
  | q :: rest => if q.comments ≤ p.comments then p :: q :: rest else q :: insertPoemDesc p rest

/-- Stable sort by `comments`, descending. -/
def sort_by_comments_desc : List Poem → List Poem
  | [] => []
  | p :: rest => insertPoemDesc p (sort_by_comments_desc rest)

/-- Embedding of `scrape_all` (src/main.py, lines 265-315): abort on zero
authors, cap the author list, build the normalized author-url set from the
capped list, crawl, then sort and persist once more. -/
def scrape_all (cfg : Config) (site : Site) : ScrapeState :=
  let authors := (extract_menus site).1
  if authors = [] then initState
  else
    let authors2 := capped_authors cfg authors
    let author_set := author_urls_norm authors2
    let st := authors2.foldl (processAuthor site author_set cfg) initState
    let sorted := sort_by_comments_desc st.poems
    { st with poems := sorted, saves := st.saves ++ [sorted] }

/-- What `load_or_scrape` hands to its caller: the dataset, whether the crawl
ran at all, and whether the error dialog was shown. -/
structure RunResult where
  poems : List Poem
  scraped : Bool
  errorShown : Bool
deriving DecidableEq

/-- Embedding of `load_or_scrape` (src/main.py, lines 704-715): a non-empty
loaded dataset short-circuits the crawl; otherwise scrape, and surface an
error when the scrape came back empty. -/
def load_or_scrape (saved : List JRecord) (cfg : Config) (site : Site) : RunResult :=
  let loaded := load_existing_data saved
  if loaded ≠ [] then ⟨loaded, false, false⟩
  else
    let result := scrape_all cfg site
    ⟨result.poems, true, decide (result.poems = [])⟩

/-! Embedding of src/json_content_filler.py. -/

/-- One `<p>` or `<br>` element of a poem's `entry-content` div, in document
order: whether it is a `p`, whether its raw html contains the
`<!--pstart` marker, and its extracted text. -/
structure PElem where
  isP : Bool
  hasMarker : Bool
  text : String
deriving DecidableEq

/-- The `entry-content` div: its `p`/`br` elements and its whole-div text
(the fallback when no marker is found). -/
structure EntryContent where
  elems : List PElem
  fullText : String
deriving DecidableEq

/-- A poem detail page as the enrichment utility reads it. -/
structure PoemDetail where
  entryContent : Option EntryContent
deriving DecidableEq

/-- The site as the enrichment utility observes it; an absent url is a
failed request. -/
structure FillerSite where
  pages : List (String × PoemDetail)
deriving DecidableEq

/-- Python's `"\n".join`, over character lists. -/
def joinNl : List (List Char) → List Char
  | [] => []
  | [x] => x
  | x :: y :: rest => x ++ '\n' :: joinNl (y :: rest)

/-- The marker-scanning loop of `extract_poem_text` (src/json_content_filler.py,
lines 33-44): a marker paragraph turns capture on and is itself skipped;
afterwards non-empty paragraph texts are collected; `br` elements contribute
nothing. -/
def collectParts : Bool → List PElem → List String
  | _, [] => []
  | capture, e :: rest =>
    if e.isP && e.hasMarker then collectParts true rest
    else if capture && e.isP && decide (e.text ≠ "") then e.text :: collectParts capture rest
    else collectParts capture rest

/-- Embedding of `extract_poem_text` (src/json_content_filler.py, lines
16-50): empty string on an unreachable page or missing `entry-content`;
whole-div text when no marker was found; parts joined by newlines and
stripped. -/
def extract_poem_text (fsite : FillerSite) (url : String) : String :=
  match assoc fsite.pages url with
  | none => ""
  | some d =>
    match d.entryContent with
    | none => ""
    | some ec =>
      let parts := collectParts false ec.elems
      let parts2 := if parts = [] then [ec.fullText] else parts
      (⟨trimChars (joinNl (parts2.map String.data))⟩ : String)

/-- Python dict assignment `poem["content"] = content`: replace the value in
place when the key exists, else append the key at the end. -/
def dictSet (r : JRecord) (k : String) (v : JVal) : JRecord :=
  match r with
  | [] => [(k, v)]
  | (k2, v2) :: rest => if k2 = k then (k, v) :: rest else (k2, v2) :: dictSet rest k v

/-- The module-level processing loop of src/json_content_filler.py (lines
55-64): each record's title is printed and its url fetched; a record without
a title key or a string url crashes the script (modelled as `none`). -/
def fill_contents (fsite : FillerSite) : List JRecord → Option (List JRecord)
  | [] => some []
  | r :: rest =>
    match assoc r "title", assoc r "url" with
    | some _, some (JVal.str u) =>
      match fill_contents fsite rest with
      | some out => some (dictSet r "content" (JVal.str (extract_poem_text fsite u)) :: out)
      | none => none
    | _, _ => none

/-- Crawl-state invariant behind the dedup claim: the seen-set and the
theme-resolution fetch trace are exactly the recorded urls, in order and
without duplicates. -/
def urlInv (st : ScrapeState) : Prop :=
  st.seen = st.poems.map Poem.url ∧ st.poemFetches = st.poems.map Poem.url ∧ st.seen.Nodup

/-- Crawl-state invariant behind the exclusion claim: every recorded poem's
categories are the Theme Resolver's output for its url against the author
url set `S`. -/
def themesInv (site : Site) (S : List String) (st : ScrapeState) : Prop :=
  ∀ p ∈ st.poems, p.categories = fetch_poem_themes site p.url S

/-! Concrete inputs used by counterexamples and witnesses. -/

/-- A site with two discovered authors whose crawl is capped to the first:
author two's archive url appears as a category link on the only poem. -/
def siteCap : Site :=
  { root := some { authorAnchors := [("Author One", "https://site/a1/"), ("Author Two", "https://site/a2/")],
                   themeAnchors := [] },
    listings := [("https://site/a1/",
      { articles := [{ anchor := some ("P1", "https://site/p1"), text := "", commentsLink := none }],
        relNext := none, classNext := none })],
    poemPages := [("https://site/p1", { selBlocks := [[("https://site/a2/", "Author Two")]] })] }

/-- `MAX_AUTHORS = 1`, no per-author poem cap. -/
def cfgCap : Config := ⟨some 1, none⟩

/-- The single record `scrape_all cfgCap siteCap` produces. -/
def poemCap : Poem := mkPoem "P1" "https://site/p1" 0 "Author One" ["Author Two"]

/-- A fully resolved poem record, for round-trip and schema checks. -/
def examplePoem : Poem := mkPoem "Le Lac" "https://www.poetica.fr/poeme-123/" 5 "Lamartine" ["Amour"]

/-- The empty configuration (both caps unset, as in the committed source). -/
def cfgNone : Config := ⟨none, none⟩

/-- A site whose root page is unreachable. -/
def siteEmpty : Site := ⟨none, [], []⟩

/-- The spec's concrete Theme Resolver scenario: a poem page linking the
author archive `/categories/jean-dupont/` and the theme `/categories/nature/`
as category links. -/
def siteJD : Site :=
  { root := none, listings := [],
    poemPages := [("https://site/p",
      { selBlocks := [[("/categories/jean-dupont/", "Jean Dupont"),
                       ("/categories/nature/", "Nature")]] })] }

/-- The enrichment utility's input record for the witness. -/
def recW : JRecord := [("title", JVal.str "T"), ("url", JVal.str "https://x/p")]

/-- An enrichment site with no reachable page. -/
def fsiteW : FillerSite := ⟨[]⟩

/-- The enriched dataset for `recW` over `fsiteW`. -/
def outW : List JRecord :=
  [dictSet recW "content" (JVal.str (extract_poem_text fsiteW "https://x/p"))]

/-! Helper lemmas. -/

theorem nodup_append_singleton {α : Type} {l : List α} {a : α} (h : l.Nodup) (ha : a ∉ l) :
    (l ++ [a]).Nodup := by
  simp [List.nodup_append, h, ha]

theorem themesStep_order (S : List String) :
    ∀ (ls : List (String × String)) (acc : List String),
      ∃ r, themesStep S acc ls = acc ++ r ∧ r.Sublist (ls.map Prod.snd) := by
  intro ls
  induction ls with
  | nil => intro acc; exact ⟨[], by simp [themesStep], List.nil_sublist _⟩
  | cons l rest ih =>
    intro acc
    by_cases h1 : l.2 = ""
    · obtain ⟨r, hr, hs⟩ := ih acc
      exact ⟨r, by simp only [themesStep, if_pos h1]; exact hr, hs.cons _⟩
    · by_cases h2 : norm_url l.1 ∈ S
      · obtain ⟨r, hr, hs⟩ := ih acc
        exact ⟨r, by simp only [themesStep, if_neg h1, if_pos h2]; exact hr, hs.cons _⟩
      · by_cases h3 : l.2 ∈ acc
        · obtain ⟨r, hr, hs⟩ := ih acc
          exact ⟨r, by simp only [themesStep, if_neg h1, if_neg h2, if_pos h3]; exact hr, hs.cons _⟩
        · obtain ⟨r, hr, hs⟩ := ih (acc ++ [l.2])
          refine ⟨l.2 :: r, ?_, hs.cons₂ _⟩
          simp only [themesStep, if_neg h1, if_neg h2, if_neg h3]
          rw [hr, List.append_assoc, List.singleton_append]

theorem themesStep_nodup (S : List String) :
    ∀ (ls : List (String × String)) (acc : List String), acc.Nodup →
      (themesStep S acc ls).Nodup := by
  intro ls
  induction ls with
  | nil => intro acc h; simpa [themesStep] using h
  | cons l rest ih =>
    intro acc h
    by_cases h1 : l.2 = ""
    · simp only [themesStep, if_pos h1]; exact ih acc h
    · by_cases h2 : norm_url l.1 ∈ S
      · simp only [themesStep, if_neg h1, if_pos h2]; exact ih acc h
      · by_cases h3 : l.2 ∈ acc
        · simp only [themesStep, if_neg h1, if_neg h2, if_pos h3]; exact ih acc h
        · simp only [themesStep, if_neg h1, if_neg h2, if_neg h3]
          exact ih _ (nodup_append_singleton h h3)

theorem themesStep_mem (S : List String) :
    ∀ (ls : List (String × String)) (acc : List String) (t : String),
      t ∈ themesStep S acc ls ↔
        t ∈ acc ∨ ∃ l ∈ ls, l.2 = t ∧ t ≠ "" ∧ norm_url l.1 ∉ S := by
  intro ls
  induction ls with
  | nil => intro acc t; simp [themesStep]
  | cons l rest ih =>
    intro acc t
    simp only [List.mem_cons, or_and_right, exists_or, exists_eq_left]
    by_cases h1 : l.2 = ""
    · simp only [themesStep, if_pos h1]
      rw [ih acc t]
      have hno : ¬(l.2 = t ∧ t ≠ "" ∧ norm_url l.1 ∉ S) :=
        fun hc => hc.2.1 (hc.1 ▸ h1)
      tauto
    · by_cases h2 : norm_url l.1 ∈ S
      · simp only [themesStep, if_neg h1, if_pos h2]
        rw [ih acc t]
        have hno : ¬(l.2 = t ∧ t ≠ "" ∧ norm_url l.1 ∉ S) := fun hc => hc.2.2 h2
        tauto
      · by_cases h3 : l.2 ∈ acc
        · simp only [themesStep, if_neg h1, if_neg h2, if_pos h3]
          rw [ih acc t]
          have hin : l.2 = t → t ∈ acc := fun he => he ▸ h3
          tauto
        · simp only [themesStep, if_neg h1, if_neg h2, if_neg h3]
          rw [ih (acc ++ [l.2]) t]
          have h4 : t = l.2 → l.2 = t ∧ t ≠ "" ∧ norm_url l.1 ∉ S :=
            fun he => ⟨he.symm, fun h0 => h1 (he.symm.trans h0), h2⟩
          have h5 : l.2 = t → t = l.2 := Eq.symm
          simp only [List.mem_append, List.mem_singleton, List.mem_cons, or_and_right,
            exists_or, exists_eq_left]
          tauto

theorem themesLoop_mem (S : List String) :
    ∀ (blocks : List (List (String × String))) (acc : List String) (t : String),
      t ∈ themesLoop S acc blocks →
      t ∈ acc ∨ ∃ blk ∈ blocks, ∃ l ∈ blk, l.2 = t ∧ t ≠ "" ∧ norm_url l.1 ∉ S := by
  intro blocks
  induction blocks with
  | nil => intro acc t h; exact Or.inl (by simpa [themesLoop] using h)
  | cons blk rest ih =>
    intro acc t h
    simp only [themesLoop] at h
    by_cases hne : themesStep S acc blk ≠ []
    · rw [if_pos hne] at h
      rcases (themesStep_mem S blk acc t).mp h with hacc | ⟨l, hl, hp⟩
      · exact Or.inl hacc
      · exact Or.inr ⟨blk, List.mem_cons_self _ _, l, hl, hp⟩
    · rw [if_neg hne] at h
      push_neg at hne
      rw [hne] at h
      rcases ih [] t h with hnil | ⟨blk2, hb2, l, hl, hp⟩
      · cases hnil
      · exact Or.inr ⟨blk2, List.mem_cons_of_mem _ hb2, l, hl, hp⟩

theorem fetch_poem_themes_mem {site : Site} {u : String} {S : List String} {t : String}
    (h : t ∈ fetch_poem_themes site u S) :
    t ≠ "" ∧ ∃ page, get_soup_poem site u = some page ∧
      ∃ blk ∈ page.selBlocks, ∃ l ∈ blk, l.2 = t ∧ norm_url l.1 ∉ S := by
  unfold fetch_poem_themes at h
  cases hl : get_soup_poem site u with
  | none => rw [hl] at h; cases h
  | some page =>
    rw [hl] at h
    rcases themesLoop_mem S page.selBlocks [] t h with hnil | ⟨blk, hb, l, hml, he, hne, hns⟩
    · cases hnil
    · exact ⟨hne, page, rfl, blk, hb, l, hml, he, hns⟩

/-! The claims. -/

/-- C5: for the spec's concrete poem page (author link `/categories/jean-dupont/`
and theme link `/categories/nature/`), `fetch_poem_themes` with the normalized
author url set returns exactly `["Nature"]`; in general, over one selector's
links every link whose normalized url is in the author set (or whose text is
empty) is discarded, and the remaining texts are kept in first-seen order
without duplicates. -/
theorem fetch_poem_themes_author_exclusion :
    fetch_poem_themes siteJD "https://site/p"
        (author_urls_norm [⟨"Jean Dupont", "/categories/jean-dupont/"⟩]) = ["Nature"] ∧
    ∀ (S : List String) (blk : List (String × String)),
      (themesStep S [] blk).Nodup ∧
      (∀ t, t ∈ themesStep S [] blk ↔ ∃ l ∈ blk, l.2 = t ∧ t ≠ "" ∧ norm_url l.1 ∉ S) ∧
      (themesStep S [] blk).Sublist (blk.map Prod.snd) := by
  refine ⟨by decide, fun S blk => ⟨themesStep_nodup S blk [] List.nodup_nil, ?_, ?_⟩⟩
  · intro t
    rw [themesStep_mem S blk [] t]
    simp
  · obtain ⟨r, hr, hs⟩ := themesStep_order S blk []
    rw [hr, List.nil_append]
    exact hs

/-- C7: `parse_comments_from_article` tries the body regex first and the
dedicated comment-link element second, the first successful match winning; a
card reading "12 commentaires" yields 12 and a card with no matching
indicator yields 0. -/
theorem parse_comments_strategy_order (article : Article) :
    (∀ n, findCommentRegex article.text.toList = some n →
       parse_comments_from_article article = n) ∧
    (∀ s k, findCommentRegex article.text.toList = none → article.commentsLink = some s →
       findFirstNumber s.toList = some k → parse_comments_from_article article = k) ∧
    (findCommentRegex article.text.toList = none → article.commentsLink = none →
       parse_comments_from_article article = 0) ∧
    (∀ s, findCommentRegex article.text.toList = none → article.commentsLink = some s →
       findFirstNumber s.toList = none → parse_comments_from_article article = 0) ∧
    parse_comments_from_article ⟨none, "12 commentaires", none⟩ = 12 ∧
    parse_comments_from_article ⟨none, "Un poème sans indicateur", none⟩ = 0 := by
  refine ⟨?_, ?_, ?_, ?_, by decide, by decide⟩
  · intro n h
    simp only [String.toList] at h
    simp [parse_comments_from_article, h]
  · intro s k h hs hk
    simp only [String.toList] at h hk
    simp [parse_comments_from_article, h, hs, hk]
  · intro h hn
    simp only [String.toList] at h
    simp [parse_comments_from_article, h, hn]
  · intro s h hs hk
    simp only [String.toList] at h hk
    simp [parse_comments_from_article, h, hs, hk]

/-- C3 (amended): every record written by `save_data` has exactly the fields
title, url, comments, author, categories and the derived title_lc, in that
fixed order. -/
theorem save_data_six_fields (poems : List Poem) :
    ∀ r ∈ save_data poems,
      r.map Prod.fst = ["title", "url", "comments", "author", "categories", "title_lc"] ∧
      ∃ p ∈ poems, r = poemToRecord p := by
  intro r hr
  simp only [save_data, List.mem_map] at hr
  obtain ⟨p, hp, rfl⟩ := hr
  exact ⟨rfl, p, hp, rfl⟩

/-- Witness for C3's theorem at a concrete poem. -/
theorem save_data_six_fields_witness :
    (poemToRecord examplePoem).map Prod.fst =
      ["title", "url", "comments", "author", "categories", "title_lc"] :=
  (save_data_six_fields [examplePoem] (poemToRecord examplePoem) (by decide)).1

/-- C3 counterexample: a record written by `save_data` carries the extra
`title_lc` field, beyond the five fields the claim allows. -/
theorem save_data_extra_title_lc_field :
    ∃ r ∈ save_data [examplePoem], "title_lc" ∈ r.map Prod.fst ∧
      "title_lc" ∉ ["title", "url", "comments", "author", "categories"] := by decide

/-- C2 (code bug): `save_data` writes the derived `title_lc` field, so
`Poem(**record)` fails on reload, `load_existing_data` returns the empty
list, and `load_or_scrape` re-crawls instead of short-circuiting; a legacy
five-field record (the same record without `title_lc`) loads fine, isolating
the extra field as the cause. -/
theorem save_then_load_returns_empty :
    load_existing_data (save_data [examplePoem]) = [] ∧
    (load_or_scrape (save_data [examplePoem]) cfgNone siteEmpty).scraped = true ∧
    "title_lc" ∈ (poemToRecord examplePoem).map Prod.fst ∧
    poemOfRecord (poemToRecord examplePoem) = none ∧
    poemOfRecord ((poemToRecord examplePoem).take 5) = some examplePoem := by decide

/-! Pagination walker lemmas (C6). -/

theorem length_filter_le_of_imp {α : Type} (p q : α → Bool) (l : List α)
    (h : ∀ x, q x = true → p x = true) :
    (l.filter q).length ≤ (l.filter p).length := by
  induction l with
  | nil => simp
  | cons a l ih =>
    simp only [List.filter]
    cases hq : q a with
    | true =>
      rw [h a hq]
      simpa using ih
    | false =>
      cases hp : p a with
      | true => exact ih.trans (by simp)
      | false => exact ih

theorem length_filter_lt_of_imp {α : Type} (p q : α → Bool) (l : List α)
    (h : ∀ x, q x = true → p x = true) (a : α) (ha : a ∈ l)
    (hpa : p a = true) (hqa : q a = false) :
    (l.filter q).length < (l.filter p).length := by
  induction l with
  | nil => cases ha
  | cons b l ih =>
    rcases List.mem_cons.mp ha with rfl | hb
    · simp only [List.filter, hqa, hpa]
      exact Nat.lt_succ_of_le (length_filter_le_of_imp p q l h)
    · simp only [List.filter]
      cases hq : q b with
      | true =>
        rw [h b hq]
        simpa using ih hb
      | false =>
        cases hp : p b with
        | true => exact (ih hb).trans (by simp)
        | false => exact ih hb

/-- How many listing urls of the site are not yet visited: the measure that
shrinks at every step of the walker. -/
def unseenCount (site : Site) (visited : List String) : Nat :=
  ((listing_urls site).filter (fun u => decide (u ∉ visited))).length

theorem mem_of_assoc_some {β : Type} {l : List (String × β)} {k : String} {v : β}
    (h : assoc l k = some v) : k ∈ l.map Prod.fst := by
  induction l with
  | nil => cases h
  | cons e rest ih =>
    rw [assoc] at h
    by_cases he : e.1 = k
    · exact List.mem_map.mpr ⟨e, List.mem_cons_self _ _, he⟩
    · rw [if_neg he] at h
      exact List.mem_cons_of_mem _ (ih h)

theorem unseenCount_lt (site : Site) {url : String} {visited : List String}
    (hmem : url ∈ listing_urls site) (hnv : url ∉ visited) :
    unseenCount site (url :: visited) < unseenCount site visited := by
  refine length_filter_lt_of_imp _ _ _ ?_ url hmem ?_ ?_
  · intro x hx
    simp only [decide_eq_true_eq] at hx ⊢
    exact fun hm => hx (List.mem_cons_of_mem _ hm)
  · simpa using hnv
  · simp

theorem unseenCount_le (site : Site) (visited : List String) :
    unseenCount site visited ≤ (listing_urls site).length :=
  List.length_filter_le _ _

/-- One unfolding step of the walker, as a rewrite rule. -/
theorem iterateListingLoop_succ (site : Site) (f : Nat) (url : String) (visited : List String) :
    iterateListingLoop site (f + 1) url visited =
      if url = "" ∨ url ∈ visited then []
      else match get_soup_listing site url with
        | none => []
        | some page =>
          (url, page) :: iterateListingLoop site f (next_url_from url page) (url :: visited) := rfl

theorem iterateListingLoop_empty_url (site : Site) :
    ∀ fuel visited, iterateListingLoop site fuel "" visited = [] := by
  intro fuel visited
  cases fuel with
  | zero => rfl
  | succ f => simp [iterateListingLoop_succ]

theorem iterateListingLoop_stable (site : Site) :
    ∀ fuel url visited, unseenCount site visited < fuel →
      iterateListingLoop site fuel url visited = iterateListingLoop site (fuel + 1) url visited := by
  intro fuel
  induction fuel with
  | zero => intro url visited h; cases h
  | succ f ih =>
    intro url visited h
    rw [iterateListingLoop_succ, iterateListingLoop_succ]
    by_cases h1 : url = "" ∨ url ∈ visited
    · rw [if_pos h1, if_pos h1]
    · rw [if_neg h1, if_neg h1]
      cases hl : get_soup_listing site url with
      | none => rfl
      | some page =>
        have hmem : url ∈ listing_urls site := mem_of_assoc_some hl
        have hnv : url ∉ visited := fun hv => h1 (Or.inr hv)
        have hlt := unseenCount_lt site hmem hnv
        exact congrArg (List.cons (url, page)) (ih _ _ (by omega))

theorem iterateListingLoop_add (site : Site) :
    ∀ (k fuel : Nat) (url : String) (visited : List String),
      unseenCount site visited < fuel →
      iterateListingLoop site fuel url visited = iterateListingLoop site (fuel + k) url visited := by
  intro k
  induction k with
  | zero => intro fuel url visited _; rfl
  | succ j ih =>
    intro fuel url visited h
    have hstep : fuel + (j + 1) = fuel + j + 1 := by omega
    rw [ih fuel url visited h, hstep,
      iterateListingLoop_stable site (fuel + j) url visited (by omega)]

theorem iterateListingLoop_urls (site : Site) :
    ∀ (fuel : Nat) (url : String) (visited : List String),
      ((iterateListingLoop site fuel url visited).map Prod.fst).Nodup ∧
      ∀ u ∈ (iterateListingLoop site fuel url visited).map Prod.fst,
        u ∈ listing_urls site ∧ u ∉ visited := by
  intro fuel
  induction fuel with
  | zero => intro url visited; simp [iterateListingLoop]
  | succ f ih =>
    intro url visited
    rw [iterateListingLoop_succ]
    by_cases h1 : url = "" ∨ url ∈ visited
    · rw [if_pos h1]; simp
    · rw [if_neg h1]
      cases hl : get_soup_listing site url with
      | none => simp
      | some page =>
        obtain ⟨ihn, ihm⟩ := ih (next_url_from url page) (url :: visited)
        have hnotin : url ∉ (iterateListingLoop site f (next_url_from url page)
            (url :: visited)).map Prod.fst :=
          fun hmem => (ihm url hmem).2 (List.mem_cons_self _ _)
        show (((url, page) :: iterateListingLoop site f (next_url_from url page)
            (url :: visited)).map Prod.fst).Nodup ∧
          ∀ u ∈ ((url, page) :: iterateListingLoop site f (next_url_from url page)
            (url :: visited)).map Prod.fst, u ∈ listing_urls site ∧ u ∉ visited
        rw [List.map_cons]
        constructor
        · exact List.nodup_cons.mpr ⟨hnotin, ihn⟩
        · intro u hu
          rcases List.mem_cons.mp hu with rfl | hu2
          · exact ⟨mem_of_assoc_some hl, fun hv => h1 (Or.inr hv)⟩
          · obtain ⟨hm, hnv⟩ := ihm u hu2
            exact ⟨hm, fun hv => hnv (List.mem_cons_of_mem _ hv)⟩

theorem nodup_subset_le_dedup {l m : List String} (hn : l.Nodup)
    (hs : ∀ x ∈ l, x ∈ m) : l.length ≤ m.dedup.length := by
  have h2 : l.toFinset ⊆ m.toFinset :=
    fun x hx => List.mem_toFinset.mpr (hs x (List.mem_toFinset.mp hx))
  calc l.length = l.toFinset.card := (List.toFinset_card_of_nodup hn).symm
    _ ≤ m.toFinset.card := Finset.card_le_card h2
    _ = m.dedup.length := List.card_toFinset m

/-- C6: the pagination walker over any site fetches pairwise-distinct urls,
hence at most as many pages as the site has distinct listing urls; its result
is unchanged by any fuel at least `sitePageFuel` (the termination content of
the `while` loop with its visited-set guard); and a first page with no next
link ends the walk after that single page. -/
theorem iterate_all_listing_pages_termination (site : Site) (first_url : String) :
    (iterate_all_listing_pages site first_url).length ≤ ((listing_urls site).dedup).length ∧
    (∀ fuel, sitePageFuel site ≤ fuel →
      iterateListingLoop site fuel first_url [] = iterate_all_listing_pages site first_url) ∧
    (∀ page, first_url ≠ "" → get_soup_listing site first_url = some page →
      find_next_page page = none →
      iterate_all_listing_pages site first_url = [(first_url, page)]) := by
  refine ⟨?_, ?_, ?_⟩
  · obtain ⟨hn, hm⟩ := iterateListingLoop_urls site (sitePageFuel site) first_url []
    have hlen : (iterate_all_listing_pages site first_url).length
        = ((iterate_all_listing_pages site first_url).map Prod.fst).length :=
      (List.length_map _ _).symm
    rw [hlen]
    exact nodup_subset_le_dedup hn (fun x hx => (hm x hx).1)
  · intro fuel hf
    have hu : unseenCount site [] < sitePageFuel site :=
      Nat.lt_succ_of_le (unseenCount_le site [])
    have hadd := iterateListingLoop_add site (fuel - sitePageFuel site) (sitePageFuel site)
      first_url [] hu
    rw [iterate_all_listing_pages, hadd]
    congr 1
    omega
  · intro page h0 hl hn
    have hnx : next_url_from first_url page = "" := by
      rw [next_url_from, hn]
    rw [iterate_all_listing_pages, sitePageFuel, iterateListingLoop_succ,
      if_neg (by simp [h0]), hl]
    show (first_url, page) :: iterateListingLoop site (listing_urls site).length
        (next_url_from first_url page) [first_url] = [(first_url, page)]
    rw [hnx, iterateListingLoop_empty_url]
/-! Per-author cap lemmas (C10). -/

theorem appendWithCap_none : ∀ (s c : List Stub), appendWithCap c s none = (c ++ s, false) := by
  intro s
  induction s with
  | nil => intro c; simp [appendWithCap]
  | cons x rest ih => intro c; simp [appendWithCap, capReached, ih]

theorem appendWithCap_zero : ∀ (s c : List Stub), appendWithCap c s (some 0) = (c ++ s, false) := by
  intro s
  induction s with
  | nil => intro c; simp [appendWithCap]
  | cons x rest ih => intro c; simp [appendWithCap, capReached, ih]

theorem appendWithCap_some (m : Nat) (hm : 0 < m) : ∀ (s c : List Stub), c.length < m →
    appendWithCap c s (some m) =
      if c.length + s.length < m then (c ++ s, false) else ((c ++ s).take m, true) := by
  intro s
  induction s with
  | nil =>
    intro c hc
    rw [if_pos (by simpa using hc)]
    simp [appendWithCap]
  | cons x rest ih =>
    intro c hc
    simp only [appendWithCap]
    by_cases hcap : m ≤ c.length + 1
    · have hcr : capReached (some m) (c ++ [x]).length = true := by
        simp only [capReached, Bool.and_eq_true, decide_eq_true_eq, List.length_append,
          List.length_cons, List.length_nil]
        omega
      rw [if_pos hcr, if_neg (by simp only [List.length_cons]; omega)]
      have h1 : (c ++ x :: rest).take m = c ++ [x] := by
        rw [List.take_append_eq_append_take, List.take_of_length_le (by omega)]
        have h2 : m - c.length = 1 := by omega
        rw [h2]
        simp
      rw [h1]
    · have hcr : ¬ capReached (some m) (c ++ [x]).length = true := by
        simp only [capReached, Bool.and_eq_true, decide_eq_true_eq, List.length_append,
          List.length_cons, List.length_nil]
        omega
      rw [if_neg hcr, ih (c ++ [x])
        (by simp only [List.length_append, List.length_cons, List.length_nil]; omega)]
      have e1 : (c ++ [x]) ++ rest = c ++ x :: rest := by simp
      apply if_congr
      · simp only [List.length_append, List.length_cons, List.length_nil]
        omega
      · rw [e1]
      · rw [e1]

/-- One unfolding step of the fused fetch loop, as a rewrite rule. -/
theorem fetchPoemsLoop_succ (site : Site) (name : String) (f : Nat) (url : String)
    (visited : List String) (collected : List Stub) (mp : Option Nat) :
    fetchPoemsLoop site name (f + 1) url visited collected mp =
      if url = "" ∨ url ∈ visited then (collected, [])
      else match get_soup_listing site url with
        | none => (collected, [url])
        | some page =>
          match appendWithCap collected (addAuthor name
              (extract_poems_from_listing site url)) mp with
          | (c2, true) => (c2, [url])
          | (c2, false) =>
            let r := fetchPoemsLoop site name f (next_url_from url page)
              (url :: visited) c2 mp
            (r.1, url :: r.2) := rfl

theorem fetchPoemsLoop_none_grows (site : Site) (name : String) :
    ∀ (fuel : Nat) (url : String) (visited : List String) (c : List Stub),
      ∃ tail, (fetchPoemsLoop site name fuel url visited c none).1 = c ++ tail := by
  intro fuel
  induction fuel with
  | zero => intro url visited c; exact ⟨[], by simp [fetchPoemsLoop]⟩
  | succ f ih =>
    intro url visited c
    rw [fetchPoemsLoop_succ]
    by_cases h1 : url = "" ∨ url ∈ visited
    · rw [if_pos h1]; exact ⟨[], by simp⟩
    · rw [if_neg h1]
      cases hl : get_soup_listing site url with
      | none => exact ⟨[], by simp⟩
      | some page =>
        rw [appendWithCap_none]
        obtain ⟨tail, ht⟩ := ih (next_url_from url page) (url :: visited)
          (c ++ addAuthor name (extract_poems_from_listing site url))
        refine ⟨addAuthor name (extract_poems_from_listing site url) ++ tail, ?_⟩
        show (fetchPoemsLoop site name f (next_url_from url page) (url :: visited)
          (c ++ addAuthor name (extract_poems_from_listing site url)) none).1 = _
        rw [ht, List.append_assoc]

theorem fetchPoemsLoop_cap (site : Site) (name : String) (m : Nat) (hm : 0 < m) :
    ∀ (fuel : Nat) (url : String) (visited : List String) (c : List Stub), c.length < m →
      (fetchPoemsLoop site name fuel url visited c (some m)).1
        = ((fetchPoemsLoop site name fuel url visited c none).1).take m ∧
      ∃ t, (fetchPoemsLoop site name fuel url visited c (some m)).2 ++ t
        = (fetchPoemsLoop site name fuel url visited c none).2 := by
  intro fuel
  induction fuel with
  | zero =>
    intro url visited c hc
    exact ⟨(List.take_of_length_le (le_of_lt hc)).symm, [], rfl⟩
  | succ f ih =>
    intro url visited c hc
    rw [fetchPoemsLoop_succ, fetchPoemsLoop_succ]
    by_cases h1 : url = "" ∨ url ∈ visited
    · rw [if_pos h1, if_pos h1]
      exact ⟨(List.take_of_length_le (le_of_lt hc)).symm, [], rfl⟩
    · rw [if_neg h1, if_neg h1]
      cases hl : get_soup_listing site url with
      | none => exact ⟨(List.take_of_length_le (le_of_lt hc)).symm, [], rfl⟩
      | some page =>
        rw [appendWithCap_some m hm _ c hc, appendWithCap_none]
        by_cases hfit : c.length + (addAuthor name (extract_poems_from_listing site url)).length < m
        · rw [if_pos hfit]
          obtain ⟨ih1, t, ih2⟩ := ih (next_url_from url page) (url :: visited)
            (c ++ addAuthor name (extract_poems_from_listing site url))
            (by simp only [List.length_append]; omega)
          exact ⟨ih1, t, congrArg (List.cons url) ih2⟩
        · rw [if_neg hfit]
          obtain ⟨tail, ht⟩ := fetchPoemsLoop_none_grows site name f (next_url_from url page)
            (url :: visited) (c ++ addAuthor name (extract_poems_from_listing site url))
          constructor
          · show (c ++ addAuthor name (extract_poems_from_listing site url)).take m
              = ((fetchPoemsLoop site name f (next_url_from url page) (url :: visited)
                  (c ++ addAuthor name (extract_poems_from_listing site url)) none).1).take m
            rw [ht]
            conv_rhs => rw [List.take_append_eq_append_take]
            have hz : m - (c ++ addAuthor name (extract_poems_from_listing site url)).length = 0 := by
              rw [List.length_append]
              omega
            rw [hz]
            simp
          · exact ⟨(fetchPoemsLoop site name f (next_url_from url page) (url :: visited)
              (c ++ addAuthor name (extract_poems_from_listing site url)) none).2, rfl⟩

theorem fetchPoemsLoop_zero_cap (site : Site) (name : String) :
    ∀ (fuel : Nat) (url : String) (visited : List String) (c : List Stub),
      fetchPoemsLoop site name fuel url visited c (some 0)
        = fetchPoemsLoop site name fuel url visited c none := by
  intro fuel
  induction fuel with
  | zero => intro url visited c; rfl
  | succ f ih =>
    intro url visited c
    rw [fetchPoemsLoop_succ, fetchPoemsLoop_succ]
    by_cases h1 : url = "" ∨ url ∈ visited
    · rw [if_pos h1, if_pos h1]
    · rw [if_neg h1, if_neg h1]
      cases hl : get_soup_listing site url with
      | none => rfl
      | some page =>
        rw [appendWithCap_zero, appendWithCap_none]
        show ((fetchPoemsLoop site name f (next_url_from url page) (url :: visited)
            (c ++ addAuthor name (extract_poems_from_listing site url)) (some 0)).1,
          url :: (fetchPoemsLoop site name f (next_url_from url page) (url :: visited)
            (c ++ addAuthor name (extract_poems_from_listing site url)) (some 0)).2)
          = ((fetchPoemsLoop site name f (next_url_from url page) (url :: visited)
            (c ++ addAuthor name (extract_poems_from_listing site url)) none).1,
          url :: (fetchPoemsLoop site name f (next_url_from url page) (url :: visited)
            (c ++ addAuthor name (extract_poems_from_listing site url)) none).2)
        rw [ih]

/-- C10: for every positive cap `m`, `fetch_poems_for_author` collects
exactly the first `m` stubs of the uncapped crawl (hence at most `m`), and
walks only a prefix of the pages the uncapped crawl would walk; the
truthiness-based guard makes `max_poems = 0` behave exactly like `None`
(cap disabled), not like "collect zero poems". -/
theorem fetch_poems_for_author_cap (site : Site) (name url : String) (m : Nat) (hm : 0 < m) :
    (fetch_poems_for_author site name url (some m)).1
      = ((fetch_poems_for_author site name url none).1).take m ∧
    ((fetch_poems_for_author site name url (some m)).1).length ≤ m ∧
    (∃ t, (fetch_poems_for_author site name url (some m)).2 ++ t
      = (fetch_poems_for_author site name url none).2) ∧
    (∀ u2, fetch_poems_for_author site name u2 (some 0)
      = fetch_poems_for_author site name u2 none) := by
  obtain ⟨h1, h2⟩ := fetchPoemsLoop_cap site name m hm (sitePageFuel site) url [] []
    (by simpa using hm)
  have h1' : (fetch_poems_for_author site name url (some m)).1
      = ((fetch_poems_for_author site name url none).1).take m := h1
  refine ⟨h1', ?_, h2, fun u2 => fetchPoemsLoop_zero_cap site name (sitePageFuel site) u2 [] []⟩
  rw [h1']
  exact List.length_take_le m _

/-- Witness for C10 at the concrete two-author site with cap 1. -/
theorem fetch_poems_for_author_cap_witness :
    ((fetch_poems_for_author siteCap "X" "https://site/a1/" (some 1)).1).length ≤ 1 :=
  (fetch_poems_for_author_cap siteCap "X" "https://site/a1/" 1 (by decide)).2.1

/-! Crawl-fold lemmas (C1, C4, C8). -/

theorem foldl_inv {α β : Type} {f : β → α → β} {inv : β → Prop}
    (h : ∀ b a, inv b → inv (f b a)) :
    ∀ (l : List α) (b : β), inv b → inv (l.foldl f b) := by
  intro l
  induction l with
  | nil => intro b hb; exact hb
  | cons a l ih => intro b hb; exact ih _ (h b a hb)

theorem insertPoemDesc_perm (p : Poem) : ∀ l, (insertPoemDesc p l).Perm (p :: l) := by
  intro l
  induction l with
  | nil => exact List.Perm.refl _
  | cons q rest ih =>
    rw [insertPoemDesc]
    by_cases h : q.comments ≤ p.comments
    · rw [if_pos h]
    · rw [if_neg h]
      exact (ih.cons q).trans (List.Perm.swap p q rest)

theorem sort_by_comments_desc_perm : ∀ l, (sort_by_comments_desc l).Perm l := by
  intro l
  induction l with
  | nil => exact List.Perm.refl _
  | cons p rest ih =>
    rw [sort_by_comments_desc]
    exact (insertPoemDesc_perm p _).trans (ih.cons p)

theorem menu_entries_url_ne (anchors : List (String × String)) :
    ∀ e ∈ menu_entries anchors, e.url ≠ "" := by
  intro e he
  simp only [menu_entries, List.mem_filterMap] at he
  obtain ⟨a, ha, hf⟩ := he
  by_cases hc : strTrim a.2 ≠ "" ∧ a.1 ≠ ""
  · rw [if_pos hc] at hf
    injection hf with hf2
    subst hf2
    exact hc.1
  · rw [if_neg hc] at hf
    cases hf

theorem capped_authors_subset (cfg : Config) (authors : List MenuEntry) :
    ∀ a ∈ capped_authors cfg authors, a ∈ authors := by
  intro a
  rw [capped_authors]
  cases cfg.maxAuthors with
  | none => exact id
  | some k => exact fun ha => List.take_subset k authors ha

theorem capped_authors_ne_nil (cfg : Config) (authors : List MenuEntry)
    (ha : authors ≠ []) (hc : cfg.maxAuthors ≠ some 0) : capped_authors cfg authors ≠ [] := by
  rw [capped_authors]
  cases hm : cfg.maxAuthors with
  | none => exact ha
  | some k =>
    cases k with
    | zero => exact absurd hm hc
    | succ j =>
      cases authors with
      | nil => exact absurd rfl ha
      | cons a rest => simp

theorem processStub_listingPages (site : Site) (S : List String) (name : String)
    (st : ScrapeState) (p : Stub) :
    (processStub site S name st p).listingPages = st.listingPages := by
  rw [processStub]
  by_cases h : p.url ∈ st.seen
  · rw [if_pos h]
  · rw [if_neg h]

theorem foldl_processStub_listingPages (site : Site) (S : List String) (name : String) :
    ∀ (stubs : List Stub) (st : ScrapeState),
      (stubs.foldl (processStub site S name) st).listingPages = st.listingPages := by
  intro stubs
  induction stubs with
  | nil => intro st; rfl
  | cons p rest ih =>
    intro st
    rw [List.foldl_cons, ih, processStub_listingPages]

theorem processAuthor_listingPages (site : Site) (S : List String) (cfg : Config)
    (st : ScrapeState) (a : MenuEntry) :
    (processAuthor site S cfg st a).listingPages
      = st.listingPages ++ (fetch_poems_for_author site a.name a.url cfg.maxPoemsPerAuthor).2 := by
  rw [processAuthor, foldl_processStub_listingPages]

theorem processStub_urlInv (site : Site) (S : List String) (name : String)
    (st : ScrapeState) (p : Stub) (h : urlInv st) : urlInv (processStub site S name st p) := by
  obtain ⟨h1, h2, h3⟩ := h
  rw [processStub]
  by_cases hp : p.url ∈ st.seen
  · rw [if_pos hp]; exact ⟨h1, h2, h3⟩
  · rw [if_neg hp]
    refine ⟨?_, ?_, ?_⟩
    · show st.seen ++ [p.url] = (st.poems
        ++ [mkPoem p.title p.url p.comments name (fetch_poem_themes site p.url S)]).map Poem.url
      rw [List.map_append, h1]
      rfl
    · show st.poemFetches ++ [p.url] = (st.poems
        ++ [mkPoem p.title p.url p.comments name (fetch_poem_themes site p.url S)]).map Poem.url
      rw [List.map_append, h2]
      rfl
    · exact nodup_append_singleton h3 hp

theorem processAuthor_urlInv (site : Site) (S : List String) (cfg : Config)
    (st : ScrapeState) (a : MenuEntry) (h : urlInv st) :
    urlInv (processAuthor site S cfg st a) := by
  rw [processAuthor]
  exact foldl_inv (fun b q hb => processStub_urlInv site S a.name b q hb) _ _ h

theorem processStub_themesInv (site : Site) (S : List String) (name : String)
    (st : ScrapeState) (p : Stub) (h : themesInv site S st) :
    themesInv site S (processStub site S name st p) := by
  rw [processStub]
  by_cases hp : p.url ∈ st.seen
  · rw [if_pos hp]; exact h
  · rw [if_neg hp]
    intro q hq
    rcases List.mem_append.mp hq with hin | hnew
    · exact h q hin
    · rw [List.mem_singleton] at hnew
      subst hnew
      rfl

theorem processAuthor_themesInv (site : Site) (S : List String) (cfg : Config)
    (st : ScrapeState) (a : MenuEntry) (h : themesInv site S st) :
    themesInv site S (processAuthor site S cfg st a) := by
  rw [processAuthor]
  exact foldl_inv (fun b q hb => processStub_themesInv site S a.name b q hb) _ _ h

theorem foldl_processAuthor_listing_ne (site : Site) (S : List String) (cfg : Config) :
    ∀ (l : List MenuEntry) (st : ScrapeState), st.listingPages ≠ [] →
      (l.foldl (processAuthor site S cfg) st).listingPages ≠ [] := by
  intro l
  induction l with
  | nil => intro st h; exact h
  | cons a rest ih =>
    intro st h
    rw [List.foldl_cons]
    refine ih _ ?_
    rw [processAuthor_listingPages]
    intro hemp
    exact h (List.append_eq_nil.mp hemp).1

theorem fetch_pages_ne (site : Site) (name url : String) (mp : Option Nat) (h : url ≠ "") :
    (fetch_poems_for_author site name url mp).2 ≠ [] := by
  rw [fetch_poems_for_author, sitePageFuel, fetchPoemsLoop_succ, if_neg (by simp [h])]
  cases hl : get_soup_listing site url with
  | none => simp
  | some page =>
    cases hac : appendWithCap [] (addAuthor name (extract_poems_from_listing site url)) mp with
    | mk c2 flag =>
      cases flag
      · simp
      · simp

/-- C1: across one crawl run no two records share a url; each recorded url
triggered exactly one theme-resolution fetch (duplicate sightings are skipped
before fetching), so the fetch trace is a permutation of the record urls; and
the final persisted snapshot is the returned collection. -/
theorem scrape_all_url_dedup (cfg : Config) (site : Site) :
    ((scrape_all cfg site).poems.map Poem.url).Nodup ∧
    (scrape_all cfg site).poemFetches.Perm ((scrape_all cfg site).poems.map Poem.url) ∧
    ((scrape_all cfg site).saves = [] ∨
      ∃ pre, (scrape_all cfg site).saves = pre ++ [(scrape_all cfg site).poems]) := by
  simp only [scrape_all]
  by_cases ha : (extract_menus site).1 = []
  · rw [if_pos ha]
    exact ⟨List.nodup_nil, List.Perm.refl _, Or.inl rfl⟩
  · rw [if_neg ha]
    obtain ⟨h1, h2, h3⟩ := foldl_inv
      (fun b q hb => processAuthor_urlInv site
        (author_urls_norm (capped_authors cfg (extract_menus site).1)) cfg b q hb)
      (capped_authors cfg (extract_menus site).1) initState ⟨rfl, rfl, List.nodup_nil⟩
    refine ⟨?_, ?_, Or.inr ⟨((capped_authors cfg (extract_menus site).1).foldl
      (processAuthor site (author_urls_norm (capped_authors cfg (extract_menus site).1)) cfg)
      initState).saves, rfl⟩⟩
    · exact ((sort_by_comments_desc_perm _).map Poem.url).nodup_iff.mpr (h1 ▸ h3)
    · exact h2.symm ▸ ((sort_by_comments_desc_perm _).map Poem.url).symm

/-- C4 (amended): the normalized author-url set used for theme exclusion is
built from the CAPPED author list (`authors[:MAX_AUTHORS]`), not from all
discovered authors: every record's categories are the Theme Resolver's output
against that capped set, and every kept theme comes from a category link
whose normalized url lies outside that capped set. -/
theorem scrape_all_capped_exclusion (cfg : Config) (site : Site) :
    ∀ p ∈ (scrape_all cfg site).poems,
      p.categories = fetch_poem_themes site p.url
        (author_urls_norm (capped_authors cfg (extract_menus site).1)) ∧
      ∀ t ∈ p.categories, t ≠ "" ∧ ∃ page, get_soup_poem site p.url = some page ∧
        ∃ blk ∈ page.selBlocks, ∃ l ∈ blk, l.2 = t ∧
          norm_url l.1 ∉ author_urls_norm (capped_authors cfg (extract_menus site).1) := by
  intro p hp
  have hcat : p.categories = fetch_poem_themes site p.url
      (author_urls_norm (capped_authors cfg (extract_menus site).1)) := by
    revert hp
    simp only [scrape_all]
    by_cases ha : (extract_menus site).1 = []
    · rw [if_pos ha]
      intro hp
      exact absurd hp (List.not_mem_nil p)
    · rw [if_neg ha]
      intro hp
      have hinv := foldl_inv
        (fun b q hb => processAuthor_themesInv site
          (author_urls_norm (capped_authors cfg (extract_menus site).1)) cfg b q hb)
        (capped_authors cfg (extract_menus site).1) initState
        (fun q hq => absurd hq (List.not_mem_nil q))
      exact hinv p (((sort_by_comments_desc_perm _).mem_iff).mp hp)
  refine ⟨hcat, ?_⟩
  intro t ht
  rw [hcat] at ht
  exact fetch_poem_themes_mem ht

/-- C4 counterexample: with `MAX_AUTHORS = 1`, a poem of the first author
keeps "Author Two" as a theme even though its category link points at the
second DISCOVERED author's archive page — the exclusion set missed it
because it was built after the cap. -/
theorem scrape_all_uncapped_author_leaks :
    (⟨"Author Two", "https://site/a2/"⟩ : MenuEntry) ∈ (extract_menus siteCap).1 ∧
    ∃ p ∈ (scrape_all cfgCap siteCap).poems, "Author Two" ∈ p.categories ∧
      norm_url "https://site/a2/" ∈ author_urls_norm (extract_menus siteCap).1 := by decide

/-- Witness for C4's amended theorem at the concrete capped site. -/
theorem scrape_all_capped_exclusion_witness :
    poemCap.categories = fetch_poem_themes siteCap poemCap.url
      (author_urls_norm (capped_authors cfgCap (extract_menus siteCap).1)) :=
  (scrape_all_capped_exclusion cfgCap siteCap poemCap (by decide)).1

/-- C8: zero discovered authors is the abort condition — the crawl returns
the pristine initial state (no listing walks, no theme fetches, no persisted
snapshot, empty result) and `load_or_scrape` surfaces the empty result as an
error; with at least one author the pipeline instead runs to completion
(persisting a final snapshot) and, unless the author cap is zero, walks at
least one listing page. -/
theorem scrape_all_zero_authors_abort (cfg : Config) (site : Site) :
    ((extract_menus site).1 = [] →
      scrape_all cfg site = initState ∧
      (load_or_scrape [] cfg site).errorShown = true) ∧
    ((extract_menus site).1 ≠ [] →
      (scrape_all cfg site).saves ≠ [] ∧
      (cfg.maxAuthors ≠ some 0 → (scrape_all cfg site).listingPages ≠ [])) := by
  constructor
  · intro ha
    have h1 : scrape_all cfg site = initState := by
      simp only [scrape_all]
      rw [if_pos ha]
    refine ⟨h1, ?_⟩
    have h2 : load_existing_data ([] : List JRecord) = [] := rfl
    simp only [load_or_scrape]
    rw [h2, if_neg (by simp)]
    simp [h1, initState]
  · intro ha
    constructor
    · simp only [scrape_all]
      rw [if_neg ha]
      simp
    · intro hc
      simp only [scrape_all]
      rw [if_neg ha]
      have hne := capped_authors_ne_nil cfg (extract_menus site).1 ha hc
      obtain ⟨a, rest, hcons⟩ := List.exists_cons_of_ne_nil hne
      show ((capped_authors cfg (extract_menus site).1).foldl
        (processAuthor site (author_urls_norm (capped_authors cfg (extract_menus site).1)) cfg)
        initState).listingPages ≠ []
      rw [hcons, List.foldl_cons]
      apply foldl_processAuthor_listing_ne
      rw [processAuthor_listingPages]
      have hmem : a ∈ (extract_menus site).1 :=
        capped_authors_subset cfg _ a (hcons ▸ List.mem_cons_self a rest)
      have hurl : a.url ≠ "" := by
        cases hr : site.root with
        | none =>
          simp only [extract_menus, hr] at hmem
          exact absurd hmem (List.not_mem_nil a)
        | some rp =>
          simp only [extract_menus, hr] at hmem
          exact menu_entries_url_ne rp.authorAnchors a hmem
      have hpg := fetch_pages_ne site a.name a.url cfg.maxPoemsPerAuthor hurl
      intro hemp
      exact hpg (List.append_eq_nil.mp hemp).2

/-! Enrichment utility lemmas (C9). -/

theorem assoc_dictSet_self : ∀ (r : JRecord) (k : String) (v : JVal),
    assoc (dictSet r k v) k = some v := by
  intro r
  induction r with
  | nil => intro k v; simp [dictSet, assoc]
  | cons e rest ih =>
    intro k v
    obtain ⟨k1, v1⟩ := e
    simp only [dictSet]
    by_cases he : k1 = k
    · rw [if_pos he]
      simp [assoc]
    · rw [if_neg he]
      simp only [assoc]
      rw [if_neg he]
      exact ih k v

theorem assoc_dictSet_ne : ∀ (r : JRecord) (k : String) (v : JVal) (k2 : String), k2 ≠ k →
    assoc (dictSet r k v) k2 = assoc r k2 := by
  intro r
  induction r with
  | nil =>
    intro k v k2 hne
    simp only [dictSet, assoc]
    rw [if_neg (fun he => hne he.symm)]
  | cons e rest ih =>
    intro k v k2 hne
    obtain ⟨k1, v1⟩ := e
    simp only [dictSet]
    by_cases he : k1 = k
    · subst he
      rw [if_pos rfl]
      simp only [assoc]
      rw [if_neg (fun h => hne h.symm), if_neg (fun h => hne h.symm)]
    · rw [if_neg he]
      simp only [assoc]
      by_cases h12 : k1 = k2
      · rw [if_pos h12, if_pos h12]
      · rw [if_neg h12, if_neg h12]
        exact ih k v k2 hne

theorem keys_dictSet_new : ∀ (r : JRecord) (k : String) (v : JVal), k ∉ r.map Prod.fst →
    (dictSet r k v).map Prod.fst = r.map Prod.fst ++ [k] := by
  intro r
  induction r with
  | nil => intro k v _; rfl
  | cons e rest ih =>
    intro k v hk
    obtain ⟨k1, v1⟩ := e
    simp only [dictSet]
    have hne : k1 ≠ k := by
      intro h
      exact hk (by simp [h])
    rw [if_neg hne]
    simp only [List.map_cons]
    rw [ih k v (fun h => hk (List.mem_cons_of_mem _ h))]
    rfl

/-- C9: the enrichment loop is strictly additive and read-only on the core's
fields — the output has the same number of records in the same order, each
output record agrees with its input record on every key other than
`content`, carries `content` as the extracted body text (appended at the end
when the key was absent), and an unreachable detail page yields the empty
string. -/
theorem fill_contents_additive (fsite : FillerSite) (poems out : List JRecord)
    (h : fill_contents fsite poems = some out) :
    out.length = poems.length ∧
    List.Forall₂ (fun r r2 =>
      (∃ u, assoc r "url" = some (JVal.str u) ∧
        r2 = dictSet r "content" (JVal.str (extract_poem_text fsite u)) ∧
        assoc r2 "content" = some (JVal.str (extract_poem_text fsite u))) ∧
      (∀ k, k ≠ "content" → assoc r2 k = assoc r k) ∧
      ("content" ∉ r.map Prod.fst → r2.map Prod.fst = r.map Prod.fst ++ ["content"]))
      poems out ∧
    (∀ u, assoc fsite.pages u = none → extract_poem_text fsite u = "") := by
  have main : ∀ (ps os : List JRecord), fill_contents fsite ps = some os →
      os.length = ps.length ∧
      List.Forall₂ (fun r r2 =>
        (∃ u, assoc r "url" = some (JVal.str u) ∧
          r2 = dictSet r "content" (JVal.str (extract_poem_text fsite u)) ∧
          assoc r2 "content" = some (JVal.str (extract_poem_text fsite u))) ∧
        (∀ k, k ≠ "content" → assoc r2 k = assoc r k) ∧
        ("content" ∉ r.map Prod.fst → r2.map Prod.fst = r.map Prod.fst ++ ["content"]))
        ps os := by
    intro ps
    induction ps with
    | nil =>
      intro os hos
      injection hos with h2
      subst h2
      exact ⟨rfl, List.Forall₂.nil⟩
    | cons r rest ih =>
      intro os hos
      simp only [fill_contents] at hos
      cases ht : assoc r "title" with
      | none => rw [ht] at hos; cases hos
      | some tv =>
        cases hu : assoc r "url" with
        | none => rw [ht, hu] at hos; cases hos
        | some uv =>
          cases uv with
          | num n => rw [ht, hu] at hos; cases hos
          | arr xs => rw [ht, hu] at hos; cases hos
          | str u =>
            rw [ht, hu] at hos
            cases hrest : fill_contents fsite rest with
            | none => rw [hrest] at hos; cases hos
            | some os2 =>
              rw [hrest] at hos
              injection hos with h2
              subst h2
              obtain ⟨hl, hf⟩ := ih os2 hrest
              refine ⟨by simp [hl], List.Forall₂.cons ?_ hf⟩
              exact ⟨⟨u, hu, rfl, assoc_dictSet_self r "content" _⟩,
                fun k hk => assoc_dictSet_ne r "content" _ k hk,
                fun hnc => keys_dictSet_new r "content" _ hnc⟩
  obtain ⟨h1, h2⟩ := main poems out h
  refine ⟨h1, h2, ?_⟩
  intro u hu
  simp only [extract_poem_text, hu]

/-- Witness for C9 at a one-record dataset over an unreachable site. -/
theorem fill_contents_additive_witness :
    outW.length = ([recW] : List JRecord).length :=
  (fill_contents_additive fsiteW [recW] outW (by decide)).1

end Poetica
